import Mathlib

/-!
Verification of the ensembling design of this repository.

The repository consists of two instructional notebooks. The model-ensembling
cells of `Ch7.3_BatchNorm_HyperParams_Ensembling.ipynb` and the two model
builds of `Getting_Started_with_Neural_Networks.ipynb` are embedded below
from the source. The weighted-ensemble combiner and weight-search utility
specified in the design document are not present in the source files; those
components are modelled from the specification's words, each such definition
marked `Modelled from the spec:`.

Rational numbers stand in for the floating-point values of the source, so
all arithmetic facts below are exact.
-/

namespace Ensemble

/-- A prediction matrix: a list of rows (samples), each row a list of
output-dimension values. Matches the 2-D arrays of the ensembling cells. -/
abbrev Mat := List (List ℚ)

/-- Scalar multiple of a matrix, as in the cells `0.25 * (...)`, `0.5 * preds_a`. -/
def scaleMat (a : ℚ) (A : Mat) : Mat := A.map (fun r => r.map (fun x => a * x))

/-- Element-wise matrix sum, as in the cells `preds_a + preds_b`. -/
def addMat (A B : Mat) : Mat := List.zipWith (List.zipWith (· + ·)) A B

/-- Modelled from the spec: the element-wise weighted sum of the prediction
matrices, `sum_i weights[i] * predictions[i]`; the core of the Prediction
Combiner, which is described in the design document but absent from the
source files. -/
def weightedSum : List ℚ → List Mat → Mat
  | v :: vs, P :: Qs =>
    match vs, Qs with
    | [], [] => scaleMat v P
    | vs, Qs => addMat (scaleMat v P) (weightedSum vs Qs)
  | _, _ => []

/-- Sum of a list of matrices, as in `preds_a + preds_b + preds_c + preds_d`
(right-nested here; `addMat` reassociation is proved separately). -/
def sumMats : List Mat → Mat
  | [P] => P
  | P :: Qs => addMat P (sumMats Qs)
  | [] => []

/-- Entry of a matrix at sample `s` and output dimension `d`, with 0 outside
the matrix. -/
def entry (A : Mat) (s d : ℕ) : ℚ := (A.getD s []).getD d 0

/-- Two matrices have the same shape: same row count and same row lengths. -/
def sameShape (A B : Mat) : Prop := A.map List.length = B.map List.length

instance (A B : Mat) : Decidable (sameShape A B) :=
  inferInstanceAs (Decidable (A.map List.length = B.map List.length))

/-- All members of a prediction set share one shape (the data-model invariant
of the design document). -/
def wellFormed (Ps : List Mat) : Prop := ∀ P ∈ Ps, ∀ Q ∈ Ps, sameShape P Q

instance (Ps : List Mat) : Decidable (wellFormed Ps) :=
  inferInstanceAs (Decidable (∀ P ∈ Ps, ∀ Q ∈ Ps, sameShape P Q))

/-- Modelled from the spec: the numeric tolerance (1e-6) for the weight-sum
precondition of the Prediction Combiner. -/
def tolC : ℚ := 1 / 1000000

/-- Modelled from the spec: the Prediction Combiner's preconditions — the
weight vector has one entry per member, entries are non-negative, and the
entries sum to 1 within the tolerance. -/
def validWeights (Ps : List Mat) (w : List ℚ) : Prop :=
  w.length = Ps.length ∧ (∀ x ∈ w, 0 ≤ x) ∧ |w.sum - 1| ≤ tolC

instance (Ps : List Mat) (w : List ℚ) : Decidable (validWeights Ps w) :=
  inferInstanceAs (Decidable
    (w.length = Ps.length ∧ (∀ x ∈ w, 0 ≤ x) ∧ |w.sum - 1| ≤ tolC))

/-- Modelled from the spec: the Combiner's error for a malformed weight
vector (`InvalidWeightsError`). -/
inductive CombineError
  | invalidWeights
deriving DecidableEq, Repr

/-- Modelled from the spec: the Prediction Combiner,
`combine(predictions, weights)` — checks the weight preconditions, then
returns the element-wise weighted sum; the component is described in the
design document but absent from the source files. -/
def combine (Ps : List Mat) (w : List ℚ) : Except CombineError Mat :=
  if validWeights Ps w then .ok (weightedSum w Ps) else .error .invalidWeights

/-- The equal-average ensembling cell of `Ch7.3`:
`final_preds = 0.25 * (preds_a + preds_b + preds_c + preds_d)`. -/
def equalAverageCell (a b c d : Mat) : Mat :=
  scaleMat 0.25 (addMat (addMat (addMat a b) c) d)

/-- The weighted-average ensembling cell of `Ch7.3`:
`final_preds = 0.5 * preds_a + 0.25 * preds_b + 0.1 * preds_c + 0.15 * preds_d`
(the stray trailing `1` of the notebook cell is the book's listing-callout
marker, not part of the expression). -/
def weightedAverageCell (a b c d : Mat) : Mat :=
  addMat (addMat (addMat (scaleMat 0.5 a) (scaleMat 0.25 b)) (scaleMat 0.1 c))
    (scaleMat 0.15 d)

/-- The coefficient vector hard-coded in the equal-average cell. -/
def equalCellWeights : List ℚ := [0.25, 0.25, 0.25, 0.25]

/-- The coefficient vector hard-coded in the weighted-average cell. -/
def weightedCellWeights : List ℚ := [0.5, 0.25, 0.1, 0.15]

/-- Membership in the probability simplex: non-negative entries summing
exactly to 1. -/
def onSimplex (w : List ℚ) : Prop := (∀ x ∈ w, 0 ≤ x) ∧ w.sum = 1

instance (w : List ℚ) : Decidable (onSimplex w) :=
  inferInstanceAs (Decidable ((∀ x ∈ w, 0 ≤ x) ∧ w.sum = 1))

/-- The unweighted average of a set of prediction matrices, the
simple-ensembling baseline. -/
def unweightedAverage (Ps : List Mat) : Mat :=
  scaleMat ((Ps.length : ℚ))⁻¹ (sumMats Ps)


/-- Modelled from the spec: the search strategies enumerated by the Weight
Search configuration. -/
inductive Strategy
  | random
  | grid
  | nelderMead
deriving DecidableEq, Repr

/-- Modelled from the spec: the Weight Search configuration — strategy,
iteration budget, optional seed, the configured member bound for the grid
strategy, and the convergence tolerance of the Nelder-Mead strategy. -/
structure Config where
  strategy : Strategy
  iterations : ℕ
  seed : Option ℕ
  gridMaxMembers : ℕ
  tol : ℚ
deriving DecidableEq, Repr

/-- Modelled from the spec: the Weight Search error taxonomy
(`ShapeMismatchError`, `SearchSpaceTooLargeError`). -/
inductive SearchError
  | shapeMismatch
  | searchSpaceTooLarge
deriving DecidableEq, Repr

/-- Modelled from the spec: the eager shape validation of `search` — a
non-empty prediction set whose members all share one shape and whose sample
count matches the ground truth. -/
def validShapes {α : Type} (Ps : List Mat) (truth : List α) : Bool :=
  match Ps with
  | [] => false
  | P :: rest =>
    rest.all (fun Q => Q.map List.length == P.map List.length) &&
      (P.length == truth.length)

/-- Vector sum. -/
def addV (u v : List ℚ) : List ℚ := List.zipWith (· + ·) u v

/-- Vector difference. -/
def subV (u v : List ℚ) : List ℚ := List.zipWith (· - ·) u v

/-- Scalar multiple of a vector. -/
def smulV (a : ℚ) (v : List ℚ) : List ℚ := v.map (fun x => a * x)

/-- Sum of a list of vectors. -/
def sumVecs : List (List ℚ) → List ℚ
  | [v] => v
  | v :: vs => addV v (sumVecs vs)
  | [] => []

/-- Centroid of a list of vectors. -/
def centroid (vs : List (List ℚ)) : List ℚ :=
  smulV ((vs.length : ℚ))⁻¹ (sumVecs vs)

/-- Modelled from the spec: the grid strategy's simplex lattice resolution —
step size 0.05, i.e. 20 subdivisions. -/
def gridSteps : ℕ := 20

/-- All lists of `n` naturals summing to `t` (the integer lattice of the
simplex). -/
def compositions : ℕ → ℕ → List (List ℕ)
  | 0, t => if t = 0 then [[]] else []
  | n + 1, t =>
    (List.range (t + 1)).flatMap
      (fun k => (compositions n (t - k)).map (fun ks => k :: ks))

/-- Modelled from the spec: the grid strategy's candidate set — the
fixed-resolution simplex lattice with step `1 / gridSteps`. -/
def gridCandidates (n : ℕ) : List (List ℚ) :=
  (compositions n gridSteps).map
    (fun ks => ks.map (fun k : ℕ => (k : ℚ) / (gridSteps : ℚ)))

/-- Modelled from the spec: a deterministic pseudo-random generator step (a
linear congruential generator), standing in for the seeded generator of the
random strategy. -/
def lcg (s : ℕ) : ℕ := (1664525 * s + 1013904223) % 4294967296

/-- Draw `n` positive pseudo-random values, returning them with the final
generator state. -/
def drawVals : ℕ → ℕ → List ℕ × ℕ
  | 0, s => ([], s)
  | n + 1, s =>
    let s1 := lcg s
    let p := drawVals n s1
    ((s1 % 1000 + 1) :: p.1, p.2)

/-- Modelled from the spec: simplex sampling by normalization — sample
independent non-negative values and divide by their sum. -/
def normalizeVals (vs : List ℕ) : List ℚ :=
  vs.map (fun v : ℕ => (v : ℚ) / ((vs.map (fun u : ℕ => (u : ℚ))).sum))

/-- Modelled from the spec: the random strategy's candidate sequence — one
normalized sample per iteration, threading the generator state from the
seed. -/
def randomCandidates (seed iters n : ℕ) : List (List ℚ) :=
  match iters with
  | 0 => []
  | k + 1 =>
    let p := drawVals n seed
    normalizeVals p.1 :: randomCandidates p.2 k n

/-- Modelled from the spec: the Nelder-Mead projection onto the probability
simplex — clip negatives to 0 and renormalize; a vector whose clipped sum is
0 falls back to the uniform weight vector (the spec leaves this degenerate
case open). The vector is first brought to length `n` (padding with 0),
which never changes a well-formed Nelder-Mead point. -/
def projectN (n : ℕ) (w : List ℚ) : List ℚ :=
  let clip := (List.takeD n w 0).map (fun x => max x 0)
  if clip.sum = 0 then List.replicate n ((n : ℚ))⁻¹
  else clip.map (fun x => x / clip.sum)

/-- The `i`-th standard basis vector of length `n`: a single 1 and all other
entries 0 (a single-member baseline weight vector). -/
def stdBasis (n i : ℕ) : List ℚ :=
  (List.range n).map (fun j => if j = i then 1 else 0)

/-- Initial Nelder-Mead simplex: the equal-weight point together with its
translates by each standard basis vector. -/
def nmInit (n : ℕ) : List (List ℚ) :=
  List.replicate n ((n : ℚ))⁻¹ ::
    (List.range n).map (fun i => addV (List.replicate n ((n : ℚ))⁻¹) (stdBasis n i))

/-- Insert a vector into a list sorted by descending score. -/
def insertDesc (score : List ℚ → ℚ) (v : List ℚ) :
    List (List ℚ) → List (List ℚ)
  | [] => [v]
  | w :: ws =>
    if score w ≤ score v then v :: w :: ws else w :: insertDesc score v ws

/-- Sort vectors by descending score (insertion sort). -/
def sortDesc (score : List ℚ → ℚ) : List (List ℚ) → List (List ℚ)
  | [] => []
  | v :: vs => insertDesc score v (sortDesc score vs)

/-- Best score among a list of vectors. -/
def bestScoreOf (score : List ℚ → ℚ) : List (List ℚ) → ℚ
  | [] => 0
  | v :: vs => (vs.map score).foldl max (score v)

/-- Modelled from the spec: one Nelder-Mead step (reflection, expansion,
contraction, shrink of the worst vertex toward the rest), maximizing the
score. Returns the new vertex set together with the trial points evaluated
in this step. -/
def nmStep (score : List ℚ → ℚ) (verts : List (List ℚ)) :
    List (List ℚ) × List (List ℚ) :=
  match (sortDesc score verts).reverse with
  | [] => (verts, [])
  | worst :: revRest =>
    match revRest.reverse with
    | [] => (verts, [])
    | best :: others =>
      let goods := best :: others
      let c := centroid goods
      let refl := addV c (subV c worst)
      if score best < score refl then
        let expd := addV c (smulV 2 (subV c worst))
        if score refl < score expd then (expd :: goods, [refl, expd])
        else (refl :: goods, [refl, expd])
      else if score (revRest.headD best) < score refl then
        (refl :: goods, [refl])
      else
        let con := addV c (smulV (1 / 2) (subV worst c))
        if score worst < score con then (con :: goods, [con])
        else
          let shrunk :=
            (others ++ [worst]).map
              (fun v => addV best (smulV (1 / 2) (subV v best)))
          (best :: shrunk, shrunk)

/-- Modelled from the spec: the Nelder-Mead iteration — step until the
iteration budget is spent or the best-score improvement falls below the
configured tolerance, accumulating every point evaluated. -/
def nmLoop (score : List ℚ → ℚ) (tol : ℚ) :
    ℕ → List (List ℚ) → List (List ℚ) → List (List ℚ)
  | 0, _, acc => acc
  | fuel + 1, verts, acc =>
    let r := nmStep score verts
    if bestScoreOf score r.1 - bestScoreOf score verts < tol then acc ++ r.2
    else nmLoop score tol fuel r.1 (acc ++ r.2)

/-- Modelled from the spec: the raw (unconstrained-space) points evaluated by
the Nelder-Mead strategy; every score evaluation happens at the simplex
projection of such a point. -/
def nmRaw (score : List ℚ → ℚ) (tol : ℚ) (iters n : ℕ) : List (List ℚ) :=
  nmLoop score tol iters (nmInit n) (nmInit n)

/-- Modelled from the spec: the candidate weight vectors a search
configuration explores, given the (already combined-and-scored) objective on
weight vectors. The iteration budget is clamped to at least one, matching
the configuration contract's positive iteration count. -/
def explored (cfg : Config) (score : List ℚ → ℚ) (n : ℕ) : List (List ℚ) :=
  match cfg.strategy with
  | Strategy.grid => gridCandidates n
  | Strategy.random => randomCandidates (cfg.seed.getD 0) (max 1 cfg.iterations) n
  | Strategy.nelderMead =>
    (nmRaw (fun v => score (projectN n v)) cfg.tol (max 1 cfg.iterations) n).map
      (projectN n)

/-- Keep the better-scoring of a running best and a new candidate (the new
candidate replaces the running best only on a strict improvement). -/
def betterOf (score : List ℚ → ℚ) (b : List ℚ × ℚ) (w : List ℚ) :
    List ℚ × ℚ :=
  if b.2 < score w then (w, score w) else b

/-- Scan the candidates, retaining the maximum-scoring one seen so far. -/
def bestCandidate (score : List ℚ → ℚ) (c : List ℚ) (cs : List (List ℚ)) :
    List ℚ × ℚ :=
  cs.foldl (betterOf score) (c, score c)

/-- Modelled from the spec: the Weight Search,
`search(predictions, truth, score_fn, config)` — validates shapes eagerly,
enforces the grid strategy's member bound, then scores every explored
candidate through the Combiner's weighted sum and returns the best weight
vector with its score. The component is described in the design document but
absent from the source files. -/
def search {α : Type} (Ps : List Mat) (truth : List α)
    (f : Mat → List α → ℚ) (cfg : Config) :
    Except SearchError (List ℚ × ℚ) :=
  if validShapes Ps truth then
    if cfg.strategy = Strategy.grid ∧ cfg.gridMaxMembers < Ps.length then
      .error .searchSpaceTooLarge
    else
      match explored cfg (fun v => f (weightedSum v Ps) truth) Ps.length with
      | [] => .error .shapeMismatch
      | c :: cs => .ok (bestCandidate (fun v => f (weightedSum v Ps) truth) c cs)
  else .error .shapeMismatch

/-- Modelled from the spec: the affine combination `a*w1 + b*w2` of two
weight vectors, entry by entry. -/
def affComb (a b : ℚ) (w1 w2 : List ℚ) : List ℚ :=
  List.zipWith (fun x y => a * x + b * y) w1 w2


/-- Dense layer of the source notebooks, `layers.Dense(units, activation=act)`:
an affine map (one dot product per unit, plus bias) followed by the
activation. The activation function itself belongs to the external
framework and is taken as an opaque function argument. -/
def denseLayer (act : List ℚ → List ℚ) (W : Mat) (b : List ℚ)
    (x : List ℚ) : List ℚ :=
  act (addV (W.map (fun r => (List.zipWith (· * ·) r x).sum)) b)

/-- The relu activation, `max(x, 0)` entrywise. -/
def reluV (x : List ℚ) : List ℚ := x.map (fun t => max t 0)

/-- Keras `Sequential` semantics: apply the added layers in order. -/
def runSequential (layers : List (List ℚ → List ℚ)) (x : List ℚ) : List ℚ :=
  layers.foldl (fun v l => l v) x

/-- The `Sequential` build of `Getting_Started_with_Neural_Networks.ipynb`:
`model.add(layers.Dense(32, activation=relu, input_shape=(784,)))` then
`model.add(layers.Dense(10, activation=softmax))`. -/
def sequentialModel (softmaxF : List ℚ → List ℚ) (W1 : Mat) (b1 : List ℚ)
    (W2 : Mat) (b2 : List ℚ) (x : List ℚ) : List ℚ :=
  runSequential [denseLayer reluV W1 b1, denseLayer softmaxF W2 b2] x

/-- The functional-API build of the same notebook:
`x = layers.Dense(32, activation=relu)(input_tensor)` and
`output_tensor = layers.Dense(10, activation=softmax)(x)`. -/
def functionalModel (softmaxF : List ℚ → List ℚ) (W1 : Mat) (b1 : List ℚ)
    (W2 : Mat) (b2 : List ℚ) (x : List ℚ) : List ℚ :=
  denseLayer softmaxF W2 b2 (denseLayer reluV W1 b1 x)

section MatLemmas

lemma addMat_assoc (A B C : Mat) :
    addMat (addMat A B) C = addMat A (addMat B C) := by
  induction A generalizing B C with
  | nil => simp [addMat]
  | cons r A ih =>
    cases B with
    | nil => simp [addMat]
    | cons rB B =>
      cases C with
      | nil => simp [addMat]
      | cons rC C =>
        simp only [addMat, List.zipWith_cons_cons] at *
        refine congrArg₂ _ ?_ (ih B C)
        induction r generalizing rB rC with
        | nil => simp
        | cons x r ihr =>
          cases rB with
          | nil => simp
          | cons y rB =>
            cases rC with
            | nil => simp
            | cons z rC =>
              simp only [List.zipWith_cons_cons]
              exact congrArg₂ _ (add_assoc x y z) (ihr rB rC)

lemma addMat_comm (A B : Mat) : addMat A B = addMat B A := by
  induction A generalizing B with
  | nil => cases B <;> simp [addMat]
  | cons r A ih =>
    cases B with
    | nil => simp [addMat]
    | cons rB B =>
      simp only [addMat, List.zipWith_cons_cons] at *
      refine congrArg₂ _ ?_ (ih B)
      induction r generalizing rB with
      | nil => cases rB <;> simp
      | cons x r ihr =>
        cases rB with
        | nil => simp
        | cons y rB =>
          simp only [List.zipWith_cons_cons]
          exact congrArg₂ _ (add_comm x y) (ihr rB)

lemma scaleMat_addMat (a : ℚ) (A B : Mat) :
    scaleMat a (addMat A B) = addMat (scaleMat a A) (scaleMat a B) := by
  induction A generalizing B with
  | nil => simp [addMat, scaleMat]
  | cons r A ih =>
    cases B with
    | nil => simp [addMat, scaleMat]
    | cons rB B =>
      simp only [scaleMat, addMat, List.map_cons, List.zipWith_cons_cons] at *
      refine congrArg₂ _ ?_ ?_
      · induction r generalizing rB with
        | nil => simp
        | cons x r ihr =>
          cases rB with
          | nil => simp
          | cons y rB =>
            simp only [List.map_cons, List.zipWith_cons_cons]
            exact congrArg₂ _ (mul_add a x y) (ihr rB)
      · exact ih B

lemma scaleMat_scaleMat (a b : ℚ) (A : Mat) :
    scaleMat a (scaleMat b A) = scaleMat (a * b) A := by
  simp only [scaleMat, List.map_map]
  refine List.map_congr_left (fun r _ => ?_)
  simp only [Function.comp, List.map_map]
  exact List.map_congr_left (fun x _ => by dsimp [Function.comp]; ring)

lemma addMat_scaleMat_same (a b : ℚ) (A : Mat) :
    addMat (scaleMat a A) (scaleMat b A) = scaleMat (a + b) A := by
  induction A with
  | nil => simp [addMat, scaleMat]
  | cons r A ih =>
    simp only [scaleMat, addMat, List.map_cons, List.zipWith_cons_cons] at *
    refine congrArg₂ _ ?_ ih
    induction r with
    | nil => simp
    | cons x r ihr =>
      simp only [List.map_cons, List.zipWith_cons_cons]
      exact congrArg₂ _ (by ring) ihr

lemma scaleMat_one (A : Mat) : scaleMat 1 A = A := by
  simp only [scaleMat, one_mul]
  simp [List.map_id]

lemma weightedSum_singleton (v : ℚ) (P : Mat) :
    weightedSum [v] [P] = scaleMat v P := rfl

lemma weightedSum_cons (v : ℚ) (vs : List ℚ) (P : Mat) (Qs : List Mat)
    (hvs : vs ≠ []) (hQs : Qs ≠ []) :
    weightedSum (v :: vs) (P :: Qs) =
      addMat (scaleMat v P) (weightedSum vs Qs) := by
  cases vs with
  | nil => exact absurd rfl hvs
  | cons x xs =>
    cases Qs with
    | nil => exact absurd rfl hQs
    | cons Q Qs => rfl

end MatLemmas

section BestCandidate

variable (score : List ℚ → ℚ)

lemma foldl_betterOf_snd (cs : List (List ℚ)) :
    ∀ b : List ℚ × ℚ, b.2 = score b.1 →
      (cs.foldl (betterOf score) b).2 = score (cs.foldl (betterOf score) b).1 := by
  induction cs with
  | nil => intro b hb; simpa using hb
  | cons c cs ih =>
    intro b hb
    simp only [List.foldl_cons]
    refine ih (betterOf score b c) ?_
    unfold betterOf
    split <;> simp [hb]

lemma foldl_betterOf_mem (cs : List (List ℚ)) :
    ∀ b : List ℚ × ℚ,
      (cs.foldl (betterOf score) b).1 = b.1 ∨
        (cs.foldl (betterOf score) b).1 ∈ cs := by
  induction cs with
  | nil => intro b; left; rfl
  | cons c cs ih =>
    intro b
    simp only [List.foldl_cons]
    rcases ih (betterOf score b c) with h | h
    · rw [h]; unfold betterOf; split
      · right; exact List.mem_cons_self _ _
      · left; rfl
    · right; exact List.mem_cons_of_mem _ h

lemma foldl_betterOf_ge_init (cs : List (List ℚ)) :
    ∀ b : List ℚ × ℚ, b.2 ≤ (cs.foldl (betterOf score) b).2 := by
  induction cs with
  | nil => intro b; exact le_refl _
  | cons c cs ih =>
    intro b
    simp only [List.foldl_cons]
    refine le_trans ?_ (ih (betterOf score b c))
    unfold betterOf
    split
    · exact le_of_lt (by assumption)
    · exact le_refl _

lemma foldl_betterOf_ge_mem (cs : List (List ℚ)) :
    ∀ b : List ℚ × ℚ, ∀ w ∈ cs, score w ≤ (cs.foldl (betterOf score) b).2 := by
  induction cs with
  | nil => intro b w hw; simp at hw
  | cons c cs ih =>
    intro b w hw
    rcases List.mem_cons.mp hw with h | h
    · subst h
      simp only [List.foldl_cons]
      refine le_trans ?_ (foldl_betterOf_ge_init score cs (betterOf score b w))
      unfold betterOf
      split
      · exact le_refl _
      · exact le_of_not_lt (by assumption)
    · simp only [List.foldl_cons]
      exact ih (betterOf score b c) w h

lemma bestCandidate_snd (c : List ℚ) (cs : List (List ℚ)) :
    (bestCandidate score c cs).2 = score (bestCandidate score c cs).1 :=
  foldl_betterOf_snd score cs (c, score c) rfl

lemma bestCandidate_mem (c : List ℚ) (cs : List (List ℚ)) :
    (bestCandidate score c cs).1 ∈ c :: cs := by
  rcases foldl_betterOf_mem score cs (c, score c) with h | h
  · rw [bestCandidate, h]; exact List.mem_cons_self _ _
  · exact List.mem_cons_of_mem _ h

lemma bestCandidate_ge (c : List ℚ) (cs : List (List ℚ)) :
    ∀ w ∈ c :: cs, score w ≤ (bestCandidate score c cs).2 := by
  intro w hw
  rcases List.mem_cons.mp hw with h | h
  · subst h
    exact foldl_betterOf_ge_init score cs (w, score w)
  · exact foldl_betterOf_ge_mem score cs (c, score c) w h

lemma bestCandidate_const (w0 : List ℚ) :
    ∀ cs : List (List ℚ), (∀ c ∈ cs, c = w0) →
      bestCandidate score w0 cs = (w0, score w0) := by
  have step : ∀ (cs : List (List ℚ)), (∀ c ∈ cs, c = w0) →
      cs.foldl (betterOf score) (w0, score w0) = (w0, score w0) := by
    intro cs
    induction cs with
    | nil => intro _; rfl
    | cons c cs ih =>
      intro h
      have hc : c = w0 := h c (List.mem_cons_self _ _)
      subst hc
      simp only [List.foldl_cons]
      have : betterOf score (c, score c) c = (c, score c) := by
        unfold betterOf; simp
      rw [this]
      exact ih (fun x hx => h x (List.mem_cons_of_mem _ hx))
  intro cs h
  exact step cs h

end BestCandidate

section ValidShapes

lemma validShapes_iff {α : Type} (Ps : List Mat) (truth : List α) :
    validShapes Ps truth = true ↔
      ∃ P rest, Ps = P :: rest ∧
        (∀ Q ∈ rest, Q.map List.length = P.map List.length) ∧
        P.length = truth.length := by
  cases Ps with
  | nil => simp [validShapes]
  | cons P rest =>
    simp only [validShapes, Bool.and_eq_true, List.all_eq_true, beq_iff_eq]
    constructor
    · rintro ⟨h1, h2⟩
      exact ⟨P, rest, rfl, h1, h2⟩
    · rintro ⟨P2, rest2, heq, h1, h2⟩
      cases heq
      exact ⟨h1, h2⟩

lemma validShapes_length_pos {α : Type} {Ps : List Mat} {truth : List α}
    (h : validShapes Ps truth = true) : 1 ≤ Ps.length := by
  rcases (validShapes_iff Ps truth).mp h with ⟨P, rest, heq, -, -⟩
  subst heq
  simp

lemma validShapes_eq_false {α : Type} {Ps : List Mat} {truth : List α}
    (h : Ps = [] ∨
        (∃ P ∈ Ps, ∃ Q ∈ Ps, P.map List.length ≠ Q.map List.length) ∨
        (∃ P ∈ Ps, P.length ≠ truth.length)) :
    validShapes Ps truth = false := by
  rcases Bool.eq_false_or_eq_true (validShapes Ps truth) with hv | hv
  swap
  · exact hv
  exfalso
  rcases (validShapes_iff Ps truth).mp hv with ⟨P0, rest, heq, hsh, hlen⟩
  subst heq
  have shapeEq : ∀ Q ∈ P0 :: rest, Q.map List.length = P0.map List.length := by
    intro Q hQ
    rcases List.mem_cons.mp hQ with h | h
    · rw [h]
    · exact hsh Q h
  rcases h with h | h | h
  · exact List.cons_ne_nil _ _ h
  · rcases h with ⟨P, hP, Q, hQ, hne⟩
    exact hne ((shapeEq P hP).trans (shapeEq Q hQ).symm)
  · rcases h with ⟨P, hP, hne⟩
    apply hne
    have : P.map List.length = P0.map List.length := shapeEq P hP
    have hlenP : P.length = P0.length := by
      have := congrArg List.length this
      simpa using this
    rw [hlenP, hlen]

end ValidShapes

section Candidates

lemma sum_map_div (l : List ℚ) (t : ℚ) :
    (l.map (fun x => x / t)).sum = l.sum / t := by
  induction l with
  | nil => simp
  | cons x l ih => simp [ih, add_div]

lemma mem_compositions :
    ∀ (n t : ℕ), ∀ ks ∈ compositions n t, ks.length = n ∧ ks.sum = t := by
  intro n
  induction n with
  | zero =>
    intro t ks hks
    unfold compositions at hks
    split at hks
    · simp only [List.mem_singleton] at hks
      subst hks
      simp_all
    · simp at hks
  | succ n ih =>
    intro t ks hks
    unfold compositions at hks
    rcases List.mem_flatMap.mp hks with ⟨k, hk, hmem⟩
    rcases List.mem_map.mp hmem with ⟨ks0, hks0, hcons⟩
    subst hcons
    have hk' : k ≤ t := Nat.lt_succ_iff.mp (List.mem_range.mp hk)
    rcases ih (t - k) ks0 hks0 with ⟨hlen, hsum⟩
    constructor
    · simp [hlen]
    · simp only [List.sum_cons, hsum]
      exact Nat.add_sub_cancel' hk'

lemma compositions_zero_ne_nil : ∀ n, compositions n 0 ≠ [] := by
  intro n
  induction n with
  | zero => simp [compositions]
  | succ n ih =>
    rcases List.exists_mem_of_ne_nil _ ih with ⟨ks, hks⟩
    apply List.ne_nil_of_mem (a := 0 :: ks)
    unfold compositions
    exact List.mem_flatMap.mpr
      ⟨0, List.mem_range.mpr (Nat.succ_pos 0), List.mem_map.mpr ⟨ks, hks, rfl⟩⟩

lemma compositions_succ_ne_nil (n t : ℕ) : compositions (n + 1) t ≠ [] := by
  rcases List.exists_mem_of_ne_nil _ (compositions_zero_ne_nil n) with ⟨ks, hks⟩
  apply List.ne_nil_of_mem (a := t :: ks)
  unfold compositions
  refine List.mem_flatMap.mpr ⟨t, List.mem_range.mpr (Nat.lt_succ_self t), ?_⟩
  refine List.mem_map.mpr ⟨ks, ?_, rfl⟩
  simpa using hks

lemma mem_gridCandidates {n : ℕ} {c : List ℚ} (h : c ∈ gridCandidates n) :
    c.length = n ∧ (∀ x ∈ c, 0 ≤ x) ∧ c.sum = 1 := by
  rcases List.mem_map.mp h with ⟨ks, hks, hc⟩
  subst hc
  rcases mem_compositions n gridSteps ks hks with ⟨hlen, hsum⟩
  refine ⟨by simp [hlen], ?_, ?_⟩
  · intro x hx
    rcases List.mem_map.mp hx with ⟨k, -, hk⟩
    subst hk
    positivity
  · have hrw : ks.map (fun k : ℕ => (k : ℚ) / (gridSteps : ℚ)) =
        (ks.map (fun k : ℕ => (k : ℚ))).map (fun x => x / (gridSteps : ℚ)) := by
      rw [List.map_map]
      rfl
    rw [hrw, sum_map_div, ← Nat.cast_list_sum, hsum]
    have : (gridSteps : ℚ) ≠ 0 := by
      simp [gridSteps]
    exact div_self this

lemma gridCandidates_one : gridCandidates 1 = [[1]] := by
  have h1 : compositions 1 gridSteps = [[20]] := by decide
  unfold gridCandidates
  rw [h1]
  simp only [List.map_cons, List.map_nil]
  norm_num [gridSteps]

lemma gridCandidates_ne_nil {n : ℕ} (hn : 1 ≤ n) : gridCandidates n ≠ [] := by
  obtain ⟨m, rfl⟩ : ∃ m, n = m + 1 := ⟨n - 1, by omega⟩
  unfold gridCandidates
  intro hcontra
  exact compositions_succ_ne_nil m gridSteps (List.map_eq_nil_iff.mp hcontra)

lemma drawVals_length : ∀ n s, (drawVals n s).1.length = n := by
  intro n
  induction n with
  | zero => intro s; rfl
  | succ n ih => intro s; simp [drawVals, ih]

lemma drawVals_pos : ∀ n s, ∀ v ∈ (drawVals n s).1, 1 ≤ v := by
  intro n
  induction n with
  | zero => intro s v hv; simp [drawVals] at hv
  | succ n ih =>
    intro s v hv
    simp only [drawVals, List.mem_cons] at hv
    rcases hv with h | h
    · subst h
      exact Nat.le_add_left 1 _
    · exact ih (lcg s) v h

lemma sum_casts_pos (vs : List ℕ) (hne : vs ≠ []) (hpos : ∀ v ∈ vs, 1 ≤ v) :
    0 < (vs.map (fun u : ℕ => (u : ℚ))).sum := by
  cases vs with
  | nil => exact absurd rfl hne
  | cons v vs =>
    simp only [List.map_cons, List.sum_cons]
    have hv : (1 : ℚ) ≤ (v : ℚ) := by
      exact_mod_cast hpos v (List.mem_cons_self _ _)
    have hrest : 0 ≤ (vs.map (fun u : ℕ => (u : ℚ))).sum := by
      refine List.sum_nonneg ?_
      intro x hx
      rcases List.mem_map.mp hx with ⟨u, -, hu⟩
      subst hu
      positivity
    linarith

lemma normalizeVals_simplex (vs : List ℕ) (hne : vs ≠ [])
    (hpos : ∀ v ∈ vs, 1 ≤ v) :
    (normalizeVals vs).length = vs.length ∧
      (∀ x ∈ normalizeVals vs, 0 ≤ x) ∧ (normalizeVals vs).sum = 1 := by
  have ht : 0 < (vs.map (fun u : ℕ => (u : ℚ))).sum := sum_casts_pos vs hne hpos
  refine ⟨by simp [normalizeVals], ?_, ?_⟩
  · intro x hx
    rcases List.mem_map.mp hx with ⟨v, -, hv⟩
    subst hv
    exact div_nonneg (by positivity) (le_of_lt ht)
  · unfold normalizeVals
    have hrw : vs.map (fun v : ℕ => (v : ℚ) / ((vs.map (fun u : ℕ => (u : ℚ))).sum)) =
        (vs.map (fun u : ℕ => (u : ℚ))).map
          (fun x => x / ((vs.map (fun u : ℕ => (u : ℚ))).sum)) := by
      rw [List.map_map]
      rfl
    rw [hrw, sum_map_div]
    exact div_self (ne_of_gt ht)

lemma mem_randomCandidates :
    ∀ (iters seed : ℕ) {n : ℕ} {c : List ℚ}, 1 ≤ n →
      c ∈ randomCandidates seed iters n →
      c.length = n ∧ (∀ x ∈ c, 0 ≤ x) ∧ c.sum = 1 := by
  intro iters
  induction iters with
  | zero => intro seed n c _ hc; simp [randomCandidates] at hc
  | succ k ih =>
    intro seed n c hn hc
    simp only [randomCandidates, List.mem_cons] at hc
    rcases hc with h | h
    · subst h
      have hlen : (drawVals n seed).1.length = n := drawVals_length n seed
      have hne : (drawVals n seed).1 ≠ [] := by
        intro hcon
        rw [hcon] at hlen
        simp at hlen
        omega
      have := normalizeVals_simplex (drawVals n seed).1 hne
        (drawVals_pos n seed)
      rcases this with ⟨h1, h2, h3⟩
      exact ⟨h1.trans hlen, h2, h3⟩
    · exact ih (drawVals n seed).2 hn h

lemma randomCandidates_ne_nil (seed n : ℕ) {iters : ℕ} (hi : 1 ≤ iters) :
    randomCandidates seed iters n ≠ [] := by
  cases iters with
  | zero => omega
  | succ k => simp [randomCandidates]

lemma projectN_simplex (n : ℕ) (hn : 1 ≤ n) (w : List ℚ) :
    (projectN n w).length = n ∧ (∀ x ∈ projectN n w, 0 ≤ x) ∧
      (projectN n w).sum = 1 := by
  have hnq : ((n : ℚ)) ≠ 0 := by
    have : n ≠ 0 := by omega
    exact_mod_cast this
  have hclipnn : ∀ x ∈ (List.takeD n w 0).map (fun x => max x 0), 0 ≤ x := by
    intro x hx
    rcases List.mem_map.mp hx with ⟨y, -, hy⟩
    subst hy
    exact le_max_right y 0
  simp only [projectN]
  split
  · refine ⟨by simp, ?_, ?_⟩
    · intro x hx
      rw [List.eq_of_mem_replicate hx]
      positivity
    · rw [List.sum_replicate, nsmul_eq_mul]
      exact mul_inv_cancel₀ hnq
  · rename_i hsz
    have hpos : 0 < ((List.takeD n w 0).map (fun x => max x 0)).sum :=
      lt_of_le_of_ne (List.sum_nonneg hclipnn) (Ne.symm hsz)
    refine ⟨by simp [List.takeD_length], ?_, ?_⟩
    · intro x hx
      rcases List.mem_map.mp hx with ⟨y, hy, hxy⟩
      subst hxy
      exact div_nonneg (hclipnn y hy) (le_of_lt hpos)
    · rw [sum_map_div]
      exact div_self (ne_of_gt hpos)

lemma projectN_one (w : List ℚ) : projectN 1 w = [1] := by
  cases w with
  | nil =>
    simp [projectN]
  | cons x xs =>
    have htake : List.takeD 1 (x :: xs) 0 = [x] := by
      simp [List.takeD]
    simp only [projectN, htake]
    simp only [List.map_cons, List.map_nil, List.sum_cons, List.sum_nil,
      add_zero]
    split
    · simp
    · rename_i hne
      simp [div_self hne]

lemma nmLoop_ne_nil (score : List ℚ → ℚ) (tol : ℚ) :
    ∀ (fuel : ℕ) (verts acc : List (List ℚ)), acc ≠ [] →
      nmLoop score tol fuel verts acc ≠ [] := by
  intro fuel
  induction fuel with
  | zero => intro verts acc h; exact h
  | succ fuel ih =>
    intro verts acc h
    simp only [nmLoop]
    split
    · exact List.append_ne_nil_of_left_ne_nil h _
    · exact ih _ _ (List.append_ne_nil_of_left_ne_nil h _)

lemma nmInit_ne_nil (n : ℕ) : nmInit n ≠ [] := by
  simp [nmInit]

lemma explored_eq_grid (cfg : Config) (score : List ℚ → ℚ) (n : ℕ)
    (h : cfg.strategy = Strategy.grid) :
    explored cfg score n = gridCandidates n := by
  unfold explored
  rw [h]

lemma explored_eq_random (cfg : Config) (score : List ℚ → ℚ) (n : ℕ)
    (h : cfg.strategy = Strategy.random) :
    explored cfg score n =
      randomCandidates (cfg.seed.getD 0) (max 1 cfg.iterations) n := by
  unfold explored
  rw [h]

lemma explored_eq_nm (cfg : Config) (score : List ℚ → ℚ) (n : ℕ)
    (h : cfg.strategy = Strategy.nelderMead) :
    explored cfg score n =
      (nmRaw (fun v => score (projectN n v)) cfg.tol (max 1 cfg.iterations)
        n).map (projectN n) := by
  unfold explored
  rw [h]

lemma normalizeVals_one (v : ℕ) (hv : 1 ≤ v) : normalizeVals [v] = [1] := by
  have hvq : (1 : ℚ) ≤ (v : ℚ) := by exact_mod_cast hv
  unfold normalizeVals
  simp only [List.map_cons, List.map_nil, List.sum_cons, List.sum_nil,
    add_zero]
  rw [div_self (by linarith)]

lemma randomCandidates_one :
    ∀ (iters seed : ℕ) {c : List ℚ}, c ∈ randomCandidates seed iters 1 →
      c = [1] := by
  intro iters
  induction iters with
  | zero => intro seed c hc; simp [randomCandidates] at hc
  | succ k ih =>
    intro seed c hc
    simp only [randomCandidates, List.mem_cons] at hc
    rcases hc with h | h
    · subst h
      have hd : (drawVals 1 seed).1 = [lcg seed % 1000 + 1] := rfl
      rw [hd]
      exact normalizeVals_one _ (Nat.le_add_left 1 _)
    · exact ih _ h

lemma mem_explored_simplex (cfg : Config) (score : List ℚ → ℚ) {n : ℕ}
    {c : List ℚ} (hn : 1 ≤ n) (hc : c ∈ explored cfg score n) :
    c.length = n ∧ (∀ x ∈ c, 0 ≤ x) ∧ c.sum = 1 := by
  cases hstrat : cfg.strategy with
  | grid =>
    rw [explored_eq_grid cfg score n hstrat] at hc
    exact mem_gridCandidates hc
  | random =>
    rw [explored_eq_random cfg score n hstrat] at hc
    exact mem_randomCandidates _ _ hn hc
  | nelderMead =>
    rw [explored_eq_nm cfg score n hstrat] at hc
    rcases List.mem_map.mp hc with ⟨v, -, hv⟩
    subst hv
    exact projectN_simplex n hn v

lemma explored_ne_nil (cfg : Config) (score : List ℚ → ℚ) {n : ℕ}
    (hn : 1 ≤ n) : explored cfg score n ≠ [] := by
  cases hstrat : cfg.strategy with
  | grid =>
    rw [explored_eq_grid cfg score n hstrat]
    exact gridCandidates_ne_nil hn
  | random =>
    rw [explored_eq_random cfg score n hstrat]
    exact randomCandidates_ne_nil _ _ (le_max_left 1 _)
  | nelderMead =>
    rw [explored_eq_nm cfg score n hstrat]
    intro hcon
    exact nmLoop_ne_nil _ _ _ _ _ (nmInit_ne_nil n)
      (List.map_eq_nil_iff.mp hcon)

lemma mem_explored_one (cfg : Config) (score : List ℚ → ℚ) {c : List ℚ}
    (hc : c ∈ explored cfg score 1) : c = [1] := by
  cases hstrat : cfg.strategy with
  | grid =>
    rw [explored_eq_grid cfg score 1 hstrat, gridCandidates_one] at hc
    simpa using hc
  | random =>
    rw [explored_eq_random cfg score 1 hstrat] at hc
    exact randomCandidates_one _ _ hc
  | nelderMead =>
    rw [explored_eq_nm cfg score 1 hstrat] at hc
    rcases List.mem_map.mp hc with ⟨v, -, hv⟩
    rw [← hv, projectN_one]

end Candidates

section SearchSpec

lemma search_ok_spec {α : Type} {Ps : List Mat} {truth : List α}
    {f : Mat → List α → ℚ} {cfg : Config} {w : List ℚ} {s : ℚ}
    (h : search Ps truth f cfg = .ok (w, s)) :
    validShapes Ps truth = true ∧
      w ∈ explored cfg (fun v => f (weightedSum v Ps) truth) Ps.length ∧
      s = f (weightedSum w Ps) truth ∧
      ∀ c ∈ explored cfg (fun v => f (weightedSum v Ps) truth) Ps.length,
        f (weightedSum c Ps) truth ≤ s := by
  unfold search at h
  split at h
  case isFalse => exact absurd h (by simp)
  case isTrue hvs =>
    split at h
    · exact absurd h (by simp)
    · split at h
      case h_1 => exact absurd h (by simp)
      case h_2 c cs heq =>
        have hbc : bestCandidate (fun v => f (weightedSum v Ps) truth) c cs =
            (w, s) := by
          injection h
        have hw : (bestCandidate (fun v => f (weightedSum v Ps) truth) c cs).1
            = w := by rw [hbc]
        have hs : (bestCandidate (fun v => f (weightedSum v Ps) truth) c cs).2
            = s := by rw [hbc]
        refine ⟨hvs, ?_, ?_, ?_⟩
        · rw [heq, ← hw]
          exact bestCandidate_mem _ c cs
        · rw [← hs, ← hw]
          exact bestCandidate_snd _ c cs
        · intro d hd
          rw [heq] at hd
          rw [← hs]
          exact bestCandidate_ge _ c cs d hd

end SearchSpec

section EntryLemmas

lemma getD_map_mul (a : ℚ) (r : List ℚ) :
    ∀ d : ℕ, (r.map (fun x => a * x)).getD d 0 = a * r.getD d 0 := by
  induction r with
  | nil => intro d; simp
  | cons x r ih =>
    intro d
    cases d with
    | zero => simp
    | succ d => simpa using ih d

lemma entry_scaleMat (a : ℚ) (A : Mat) :
    ∀ s d : ℕ, entry (scaleMat a A) s d = a * entry A s d := by
  induction A with
  | nil => intro s d; simp [entry, scaleMat]
  | cons r A ih =>
    intro s d
    cases s with
    | zero => simpa [entry, scaleMat] using getD_map_mul a r d
    | succ s => simpa [entry, scaleMat] using ih s d

lemma getD_zipWith_add (r1 : List ℚ) :
    ∀ (r2 : List ℚ) (d : ℕ), r1.length = r2.length →
      (List.zipWith (· + ·) r1 r2).getD d 0 = r1.getD d 0 + r2.getD d 0 := by
  induction r1 with
  | nil =>
    intro r2 d h
    cases r2 with
    | nil => simp
    | cons y r2 => simp at h
  | cons x r1 ih =>
    intro r2 d h
    cases r2 with
    | nil => simp at h
    | cons y r2 =>
      cases d with
      | zero => simp
      | succ d =>
        simp only [List.zipWith_cons_cons, List.getD_cons_succ]
        exact ih r2 d (by simpa using h)

lemma sameShape_cons {r1 r2 : List ℚ} {A B : Mat}
    (h : sameShape (r1 :: A) (r2 :: B)) :
    r1.length = r2.length ∧ sameShape A B := by
  unfold sameShape at h ⊢
  simp only [List.map_cons, List.cons.injEq] at h
  exact h

lemma entry_addMat (A : Mat) :
    ∀ (B : Mat) (s d : ℕ), sameShape A B →
      entry (addMat A B) s d = entry A s d + entry B s d := by
  induction A with
  | nil =>
    intro B s d h
    cases B with
    | nil => simp [entry, addMat]
    | cons r B => exact absurd h (by simp [sameShape])
  | cons r A ih =>
    intro B s d h
    cases B with
    | nil => exact absurd h (by simp [sameShape])
    | cons rB B =>
      rcases sameShape_cons h with ⟨hr, hAB⟩
      cases s with
      | zero =>
        simpa [entry, addMat] using getD_zipWith_add r rB d hr
      | succ s =>
        simpa [entry, addMat] using ih B s d hAB

lemma shape_scaleMat (a : ℚ) (A : Mat) :
    (scaleMat a A).map List.length = A.map List.length := by
  unfold scaleMat
  rw [List.map_map]
  exact List.map_congr_left (fun r _ => by simp)

lemma shape_addMat (A : Mat) :
    ∀ B : Mat, sameShape A B →
      (addMat A B).map List.length = A.map List.length := by
  induction A with
  | nil => intro B h; simp [addMat]
  | cons r A ih =>
    intro B h
    cases B with
    | nil => exact absurd h (by simp [sameShape])
    | cons rB B =>
      rcases sameShape_cons h with ⟨hr, hAB⟩
      simp only [addMat, List.zipWith_cons_cons, List.map_cons]
      rw [show (List.zipWith (· + ·) r rB).length = r.length by
        simp [List.length_zipWith, hr]]
      have := ih B hAB
      unfold addMat at this
      rw [this]

lemma shape_weightedSum (S : List ℕ) :
    ∀ (Ps : List Mat) (w : List ℚ), w.length = Ps.length → Ps ≠ [] →
      (∀ P ∈ Ps, P.map List.length = S) →
      (weightedSum w Ps).map List.length = S := by
  intro Ps
  induction Ps with
  | nil => intro w _ hne _; exact absurd rfl hne
  | cons P Qs ih =>
    intro w hlen _ hsh
    cases w with
    | nil => simp at hlen
    | cons v vs =>
      cases Qs with
      | nil =>
        have hvs : vs = [] := by simpa using hlen
        subst hvs
        rw [weightedSum_singleton, shape_scaleMat]
        exact hsh P (List.mem_cons_self _ _)
      | cons Q Qs2 =>
        have hvs : vs ≠ [] := by
          intro hcon
          subst hcon
          simp at hlen
        rw [weightedSum_cons v vs P (Q :: Qs2) hvs (List.cons_ne_nil _ _)]
        have hshQ : (weightedSum vs (Q :: Qs2)).map List.length = S := by
          refine ih vs (by simpa using hlen) (List.cons_ne_nil _ _) ?_
          intro R hR
          exact hsh R (List.mem_cons_of_mem _ hR)
        have hshP : (scaleMat v P).map List.length = S := by
          rw [shape_scaleMat]
          exact hsh P (List.mem_cons_self _ _)
        have hsame : sameShape (scaleMat v P) (weightedSum vs (Q :: Qs2)) := by
          unfold sameShape
          rw [hshP, hshQ]
        rw [shape_addMat _ _ hsame, hshP]

lemma entry_weightedSum_aux (S : List ℕ) :
    ∀ (Ps : List Mat) (w : List ℚ), w.length = Ps.length →
      (∀ P ∈ Ps, P.map List.length = S) →
      ∀ s d : ℕ, entry (weightedSum w Ps) s d =
        ((w.zip Ps).map (fun p => p.1 * entry p.2 s d)).sum := by
  intro Ps
  induction Ps with
  | nil =>
    intro w hlen _ s d
    have hw : w = [] := by simpa using hlen
    subst hw
    simp [weightedSum, entry]
  | cons P Qs ih =>
    intro w hlen hsh s d
    cases w with
    | nil => simp at hlen
    | cons v vs =>
      cases Qs with
      | nil =>
        have hvs : vs = [] := by simpa using hlen
        subst hvs
        rw [weightedSum_singleton]
        simp [entry_scaleMat]
      | cons Q Qs2 =>
        have hvs : vs ≠ [] := by
          intro hcon
          subst hcon
          simp at hlen
        have hlen2 : vs.length = (Q :: Qs2).length := by simpa using hlen
        have hshQ : ∀ R ∈ Q :: Qs2, R.map List.length = S := by
          intro R hR
          exact hsh R (List.mem_cons_of_mem _ hR)
        rw [weightedSum_cons v vs P (Q :: Qs2) hvs (List.cons_ne_nil _ _)]
        have hsame : sameShape (scaleMat v P) (weightedSum vs (Q :: Qs2)) := by
          unfold sameShape
          rw [shape_scaleMat, hsh P (List.mem_cons_self _ _),
            shape_weightedSum S (Q :: Qs2) vs hlen2 (List.cons_ne_nil _ _) hshQ]
        rw [entry_addMat _ _ s d hsame, entry_scaleMat,
          ih vs hlen2 hshQ s d]
        simp [List.zip_cons_cons]

lemma entry_weightedSum (Ps : List Mat) (w : List ℚ)
    (hlen : w.length = Ps.length) (hwf : wellFormed Ps) :
    ∀ s d : ℕ, entry (weightedSum w Ps) s d =
      ((w.zip Ps).map (fun p => p.1 * entry p.2 s d)).sum := by
  cases Ps with
  | nil =>
    intro s d
    have hw : w = [] := by simpa using hlen
    subst hw
    simp [weightedSum, entry]
  | cons P Qs =>
    exact entry_weightedSum_aux (P.map List.length) (P :: Qs) w hlen
      (fun R hR => hwf R hR P (List.mem_cons_self _ _))

end EntryLemmas

section WeightedSumAlgebra

lemma sumMats_cons_cons (P Q : Mat) (Qs : List Mat) :
    sumMats (P :: Q :: Qs) = addMat P (sumMats (Q :: Qs)) := rfl

lemma weightedSum_replicate (c : ℚ) :
    ∀ Ps : List Mat, Ps ≠ [] →
      weightedSum (List.replicate Ps.length c) Ps = scaleMat c (sumMats Ps) := by
  intro Ps
  induction Ps with
  | nil => intro h; exact absurd rfl h
  | cons P Qs ih =>
    intro _
    cases Qs with
    | nil =>
      simp only [List.length_cons, List.length_nil, List.replicate]
      rw [weightedSum_singleton]
      rfl
    | cons Q Qs2 =>
      have hrep : List.replicate (P :: Q :: Qs2).length c =
          c :: List.replicate (Q :: Qs2).length c := rfl
      rw [hrep,
        weightedSum_cons c (List.replicate (Q :: Qs2).length c) P (Q :: Qs2)
          (by simp) (List.cons_ne_nil _ _),
        ih (List.cons_ne_nil _ _), sumMats_cons_cons, scaleMat_addMat]

lemma affComb_sum (a b : ℚ) :
    ∀ (w1 w2 : List ℚ), w1.length = w2.length →
      (affComb a b w1 w2).sum = a * w1.sum + b * w2.sum := by
  intro w1
  induction w1 with
  | nil =>
    intro w2 h
    cases w2 with
    | nil => simp [affComb]
    | cons y w2 => simp at h
  | cons x w1 ih =>
    intro w2 h
    cases w2 with
    | nil => simp at h
    | cons y w2 =>
      simp only [affComb, List.zipWith_cons_cons, List.sum_cons] at *
      rw [ih w2 (by simpa using h)]
      ring

lemma affComb_nonneg {a b : ℚ} (ha : 0 ≤ a) (hb : 0 ≤ b) :
    ∀ (w1 w2 : List ℚ), (∀ x ∈ w1, 0 ≤ x) → (∀ y ∈ w2, 0 ≤ y) →
      ∀ z ∈ affComb a b w1 w2, 0 ≤ z := by
  intro w1
  induction w1 with
  | nil => intro w2 _ _ z hz; simp [affComb] at hz
  | cons x w1 ih =>
    intro w2 h1 h2 z hz
    cases w2 with
    | nil => simp [affComb] at hz
    | cons y w2 =>
      simp only [affComb, List.zipWith_cons_cons, List.mem_cons] at hz
      rcases hz with h | h
      · subst h
        exact add_nonneg
          (mul_nonneg ha (h1 x (List.mem_cons_self _ _)))
          (mul_nonneg hb (h2 y (List.mem_cons_self _ _)))
      · exact ih w2 (fun t ht => h1 t (List.mem_cons_of_mem _ ht))
          (fun t ht => h2 t (List.mem_cons_of_mem _ ht)) z h

lemma validWeights_affComb {a b : ℚ} {Ps : List Mat} {w1 w2 : List ℚ}
    (ha : 0 ≤ a) (hb : 0 ≤ b) (hab : a + b = 1)
    (h1 : validWeights Ps w1) (h2 : validWeights Ps w2) :
    validWeights Ps (affComb a b w1 w2) := by
  rcases h1 with ⟨hl1, hn1, hs1⟩
  rcases h2 with ⟨hl2, hn2, hs2⟩
  refine ⟨?_, affComb_nonneg ha hb w1 w2 hn1 hn2, ?_⟩
  · simp [affComb, List.length_zipWith, hl1, hl2]
  · have key : (affComb a b w1 w2).sum - 1 =
        a * (w1.sum - 1) + b * (w2.sum - 1) := by
      rw [affComb_sum a b w1 w2 (hl1.trans hl2.symm)]
      linear_combination hab
    rw [key]
    calc |a * (w1.sum - 1) + b * (w2.sum - 1)|
        ≤ |a * (w1.sum - 1)| + |b * (w2.sum - 1)| := abs_add _ _
      _ = a * |w1.sum - 1| + b * |w2.sum - 1| := by
          rw [abs_mul, abs_mul, abs_of_nonneg ha, abs_of_nonneg hb]
      _ ≤ a * tolC + b * tolC :=
          add_le_add (mul_le_mul_of_nonneg_left hs1 ha)
            (mul_le_mul_of_nonneg_left hs2 hb)
      _ = tolC := by rw [← add_mul, hab, one_mul]

lemma addMat_addMat_swap (A B C D : Mat) :
    addMat (addMat A B) (addMat C D) = addMat (addMat A C) (addMat B D) := by
  rw [addMat_assoc A B (addMat C D), ← addMat_assoc B C D,
    addMat_comm B C, addMat_assoc C B D, ← addMat_assoc A C (addMat B D)]

lemma weightedSum_affComb (a b : ℚ) :
    ∀ (Ps : List Mat) (w1 w2 : List ℚ),
      w1.length = Ps.length → w2.length = Ps.length →
      weightedSum (affComb a b w1 w2) Ps =
        addMat (scaleMat a (weightedSum w1 Ps))
          (scaleMat b (weightedSum w2 Ps)) := by
  intro Ps
  induction Ps with
  | nil =>
    intro w1 w2 h1 h2
    have hw1 : w1 = [] := by simpa using h1
    have hw2 : w2 = [] := by simpa using h2
    subst hw1; subst hw2
    simp [affComb, weightedSum, scaleMat, addMat]
  | cons P Qs ih =>
    intro w1 w2 h1 h2
    cases w1 with
    | nil => simp at h1
    | cons x xs =>
      cases w2 with
      | nil => simp at h2
      | cons y ys =>
        cases Qs with
        | nil =>
          have hx : xs = [] := by simpa using h1
          have hy : ys = [] := by simpa using h2
          subst hx; subst hy
          show weightedSum [a * x + b * y] [P] = _
          rw [weightedSum_singleton, weightedSum_singleton,
            weightedSum_singleton, scaleMat_scaleMat, scaleMat_scaleMat,
            addMat_scaleMat_same]
        | cons Q Qs2 =>
          have hx : xs ≠ [] := by intro h; subst h; simp at h1
          have hy : ys ≠ [] := by intro h; subst h; simp at h2
          have hxlen : xs.length = (Q :: Qs2).length := by simpa using h1
          have hylen : ys.length = (Q :: Qs2).length := by simpa using h2
          have haff : affComb a b (x :: xs) (y :: ys) =
              (a * x + b * y) :: affComb a b xs ys := rfl
          have haffne : affComb a b xs ys ≠ [] := by
            rcases List.exists_cons_of_ne_nil hx with ⟨x2, xs2, hxe⟩
            rcases List.exists_cons_of_ne_nil hy with ⟨y2, ys2, hye⟩
            subst hxe; subst hye
            simp [affComb]
          rw [haff,
            weightedSum_cons _ _ P (Q :: Qs2) haffne (List.cons_ne_nil _ _),
            weightedSum_cons x xs P (Q :: Qs2) hx (List.cons_ne_nil _ _),
            weightedSum_cons y ys P (Q :: Qs2) hy (List.cons_ne_nil _ _),
            ih xs ys hxlen hylen,
            scaleMat_addMat, scaleMat_addMat,
            scaleMat_scaleMat, scaleMat_scaleMat,
            ← addMat_scaleMat_same (a * x) (b * y) P,
            addMat_addMat_swap]

end WeightedSumAlgebra

section SingletonSearch

lemma search_singleton_eval {α : Type} (M : Mat) (truth : List α)
    (f : Mat → List α → ℚ) (cfg : Config) (hlen : M.length = truth.length)
    (hgrid : cfg.strategy = Strategy.grid → 1 ≤ cfg.gridMaxMembers) :
    search [M] truth f cfg = .ok ([1], f M truth) := by
  have hvs : validShapes [M] truth = true := by
    simp [validShapes, hlen]
  have hone : ([M] : List Mat).length = 1 := rfl
  have hne : explored cfg (fun v => f (weightedSum v [M]) truth) 1 ≠ [] :=
    explored_ne_nil cfg _ le_rfl
  rcases List.exists_cons_of_ne_nil hne with ⟨c, cs, heq⟩
  have hc : c = [1] :=
    mem_explored_one cfg _ (by rw [heq]; exact List.mem_cons_self _ _)
  have hcs : ∀ x ∈ cs, x = [1] := fun x hx =>
    mem_explored_one cfg _ (by rw [heq]; exact List.mem_cons_of_mem _ hx)
  have hguard : ¬ (cfg.strategy = Strategy.grid ∧
      cfg.gridMaxMembers < ([M] : List Mat).length) := by
    rintro ⟨hg, hlt⟩
    have := hgrid hg
    rw [hone] at hlt
    omega
  have hmw : weightedSum [1] [M] = M := by
    rw [weightedSum_singleton, scaleMat_one]
  unfold search
  rw [if_pos hvs, if_neg hguard, hone, heq]
  show Except.ok (bestCandidate (fun v => f (weightedSum v [M]) truth) c cs) = _
  subst hc
  rw [bestCandidate_const _ _ cs hcs]
  rw [hmw]

end SingletonSearch

section Claims

/-- Claim C1: for every prediction set and weight vector satisfying the
combiner's preconditions (on a well-formed prediction set), `combine`
returns the element-wise weighted sum of the prediction matrices — for
every sample `s` and output dimension `d` the result entry is
`sum_i weights[i] * predictions[i][s][d]`. The scenario instance with
`P1 = [[0.9,0.1],[0.2,0.8],[0.6,0.4]]`, `P2 = [[0.6,0.4],[0.4,0.6],[0.5,0.5]]`
and weights `[0.5, 0.5]` is the witness below. -/
theorem combine_elementwise_weighted_sum (Ps : List Mat) (w : List ℚ)
    (hv : validWeights Ps w) (hwf : wellFormed Ps) :
    combine Ps w = .ok (weightedSum w Ps) ∧
      ∀ s d : ℕ, entry (weightedSum w Ps) s d =
        ((w.zip Ps).map (fun p => p.1 * entry p.2 s d)).sum := by
  refine ⟨?_, entry_weightedSum Ps w hv.1 hwf⟩
  unfold combine
  rw [if_pos hv]

/-- Witness for C1, at the spec's scenario: the two 3-sample, 2-class
matrices with weights `[0.5, 0.5]` combine to
`[[0.75, 0.25], [0.3, 0.7], [0.55, 0.45]]`. -/
theorem combine_elementwise_weighted_sum_witness :
    validWeights
        [[[0.9, 0.1], [0.2, 0.8], [0.6, 0.4]],
          [[0.6, 0.4], [0.4, 0.6], [0.5, 0.5]]] [0.5, 0.5] ∧
      wellFormed
        [[[0.9, 0.1], [0.2, 0.8], [0.6, 0.4]],
          [[0.6, 0.4], [0.4, 0.6], [0.5, 0.5]]] ∧
      combine
        [[[0.9, 0.1], [0.2, 0.8], [0.6, 0.4]],
          [[0.6, 0.4], [0.4, 0.6], [0.5, 0.5]]] [0.5, 0.5] =
        .ok [[0.75, 0.25], [0.3, 0.7], [0.55, 0.45]] := by
  have hv : validWeights
      [[[0.9, 0.1], [0.2, 0.8], [0.6, 0.4]],
        [[0.6, 0.4], [0.4, 0.6], [0.5, 0.5]]] ([0.5, 0.5] : List ℚ) := by
    norm_num [validWeights, tolC]
  have hwf : wellFormed
      [[[0.9, 0.1], [0.2, 0.8], [0.6, 0.4]],
        [[0.6, 0.4], [0.4, 0.6], [0.5, 0.5]]] := by
    decide
  refine ⟨hv, hwf, ?_⟩
  rw [(combine_elementwise_weighted_sum _ _ hv hwf).1]
  norm_num [weightedSum, scaleMat, addMat]

/-- Claim C2: whenever `search` returns, the returned weight vector
satisfies the Prediction Combiner's preconditions, and the returned score
is exactly the score of the combined prediction at those weights (no stale
caching). -/
theorem search_postconditions {α : Type} (Ps : List Mat) (truth : List α)
    (f : Mat → List α → ℚ) (cfg : Config) (w : List ℚ) (s : ℚ)
    (h : search Ps truth f cfg = .ok (w, s)) :
    validWeights Ps w ∧ combine Ps w = .ok (weightedSum w Ps) ∧
      s = f (weightedSum w Ps) truth := by
  rcases search_ok_spec h with ⟨hvs, hmem, hs, -⟩
  have hn : 1 ≤ Ps.length := validShapes_length_pos hvs
  rcases mem_explored_simplex cfg _ hn hmem with ⟨hlen, hnn, hsum⟩
  have hv : validWeights Ps w := ⟨hlen, hnn, by rw [hsum]; norm_num [tolC]⟩
  exact ⟨hv, by unfold combine; rw [if_pos hv], hs⟩

/-- Witness for C2 at a concrete single-member grid search. -/
theorem search_postconditions_witness :
    search [[[(37 : ℚ)]]] [(0 : ℚ)] (fun A _ => entry A 0 0)
        (Config.mk Strategy.grid 1 none 5 0) = .ok ([1], 37) ∧
      (validWeights [[[(37 : ℚ)]]] [1] ∧
        combine [[[(37 : ℚ)]]] [1] = .ok (weightedSum [1] [[[(37 : ℚ)]]]) ∧
        (37 : ℚ) = entry (weightedSum [1] [[[(37 : ℚ)]]]) 0 0) := by
  have h : search [[[(37 : ℚ)]]] [(0 : ℚ)] (fun A _ => entry A 0 0)
      (Config.mk Strategy.grid 1 none 5 0) = .ok ([1], 37) :=
    search_singleton_eval [[(37 : ℚ)]] [(0 : ℚ)] (fun A _ => entry A 0 0)
      (Config.mk Strategy.grid 1 none 5 0) rfl (fun _ => by norm_num)
  exact ⟨h, search_postconditions _ _ _ _ _ _ h⟩

/-- Claim C3: `search` on an empty prediction set, on mismatched member
shapes, or on a sample count differing from the ground truth fails with
`ShapeMismatchError`; the result is independent of the score function, so
no score is ever evaluated. -/
theorem search_shape_mismatch_fails {α : Type} (Ps : List Mat)
    (truth : List α) (cfg : Config)
    (h : Ps = [] ∨
        (∃ P ∈ Ps, ∃ Q ∈ Ps, P.map List.length ≠ Q.map List.length) ∨
        (∃ P ∈ Ps, P.length ≠ truth.length)) :
    ∀ f g : Mat → List α → ℚ,
      search Ps truth f cfg = .error SearchError.shapeMismatch ∧
        search Ps truth f cfg = search Ps truth g cfg := by
  have hv := validShapes_eq_false h
  intro f g
  constructor
  · simp [search, hv]
  · simp [search, hv]

/-- Witness for C3 at the empty prediction set. -/
theorem search_shape_mismatch_fails_witness :
    (([] : List Mat) = [] ∨
        (∃ P ∈ ([] : List Mat), ∃ Q ∈ ([] : List Mat),
          P.map List.length ≠ Q.map List.length) ∨
        (∃ P ∈ ([] : List Mat), P.length ≠ ([(0 : ℚ)]).length)) ∧
      search ([] : List Mat) [(0 : ℚ)] (fun A _ => entry A 0 0)
          (Config.mk Strategy.grid 1 none 5 0) =
        .error SearchError.shapeMismatch ∧
      search ([] : List Mat) [(0 : ℚ)] (fun A _ => entry A 0 0)
          (Config.mk Strategy.grid 1 none 5 0) =
        search ([] : List Mat) [(0 : ℚ)] (fun _ _ => (0 : ℚ))
          (Config.mk Strategy.grid 1 none 5 0) := by
  have h := search_shape_mismatch_fails ([] : List Mat) [(0 : ℚ)]
    (Config.mk Strategy.grid 1 none 5 0) (Or.inl rfl)
    (fun A _ => entry A 0 0) (fun _ _ => (0 : ℚ))
  exact ⟨Or.inl rfl, h.1, h.2⟩

/-- Claim C4: `combine` is linear in the weight vector — for weight vectors
`w1, w2` satisfying the preconditions and `a, b ≥ 0` with `a + b = 1`,
combining at `a*w1 + b*w2` yields `a * combine(P, w1) + b * combine(P, w2)`
(all three calls succeeding). -/
theorem combine_linear_in_weights (a b : ℚ) (Ps : List Mat) (w1 w2 : List ℚ)
    (ha : 0 ≤ a) (hb : 0 ≤ b) (hab : a + b = 1)
    (h1 : validWeights Ps w1) (h2 : validWeights Ps w2) :
    combine Ps w1 = .ok (weightedSum w1 Ps) ∧
      combine Ps w2 = .ok (weightedSum w2 Ps) ∧
      combine Ps (affComb a b w1 w2) =
        .ok (addMat (scaleMat a (weightedSum w1 Ps))
          (scaleMat b (weightedSum w2 Ps))) := by
  refine ⟨?_, ?_, ?_⟩
  · unfold combine; rw [if_pos h1]
  · unfold combine; rw [if_pos h2]
  · unfold combine
    rw [if_pos (validWeights_affComb ha hb hab h1 h2),
      weightedSum_affComb a b Ps w1 w2 h1.1 h2.1]

/-- Witness for C4 with two one-by-one members and the midpoint of the two
single-member baselines. -/
theorem combine_linear_in_weights_witness :
    (0 : ℚ) ≤ 1 / 2 ∧ (0 : ℚ) ≤ 1 / 2 ∧ (1 / 2 : ℚ) + 1 / 2 = 1 ∧
      validWeights [[[(1 : ℚ)]], [[(0 : ℚ)]]] [1, 0] ∧
      validWeights [[[(1 : ℚ)]], [[(0 : ℚ)]]] [0, 1] ∧
      (combine [[[(1 : ℚ)]], [[(0 : ℚ)]]] [1, 0] =
          .ok (weightedSum [1, 0] [[[(1 : ℚ)]], [[(0 : ℚ)]]]) ∧
        combine [[[(1 : ℚ)]], [[(0 : ℚ)]]] [0, 1] =
          .ok (weightedSum [0, 1] [[[(1 : ℚ)]], [[(0 : ℚ)]]]) ∧
        combine [[[(1 : ℚ)]], [[(0 : ℚ)]]]
            (affComb (1 / 2) (1 / 2) [1, 0] [0, 1]) =
          .ok (addMat
            (scaleMat (1 / 2) (weightedSum [1, 0] [[[(1 : ℚ)]], [[(0 : ℚ)]]]))
            (scaleMat (1 / 2)
              (weightedSum [0, 1] [[[(1 : ℚ)]], [[(0 : ℚ)]]])))) := by
  have h1 : validWeights [[[(1 : ℚ)]], [[(0 : ℚ)]]] ([1, 0] : List ℚ) := by
    norm_num [validWeights, tolC]
  have h2 : validWeights [[[(1 : ℚ)]], [[(0 : ℚ)]]] ([0, 1] : List ℚ) := by
    norm_num [validWeights, tolC]
  exact ⟨by norm_num, by norm_num, by norm_num, h1, h2,
    combine_linear_in_weights (1 / 2) (1 / 2) _ _ _ (by norm_num)
      (by norm_num) (by norm_num) h1 h2⟩

/-- Claim C5: combining with the equal weight vector `[1/N]*N` reproduces
the unweighted average of the `N` member matrices, and for `N = 4` the
unweighted average is exactly the source cell
`0.25 * (preds_a + preds_b + preds_c + preds_d)`. -/
theorem combine_equal_weights (Ps : List Mat) (h : Ps ≠ []) :
    combine Ps (List.replicate Ps.length ((Ps.length : ℚ))⁻¹) =
      .ok (unweightedAverage Ps) ∧
    ∀ a b c d : Mat, unweightedAverage [a, b, c, d] =
      equalAverageCell a b c d := by
  constructor
  · have hn : Ps.length ≠ 0 := by
      have := List.length_pos.mpr h
      omega
    have hnq : ((Ps.length : ℚ)) ≠ 0 := Nat.cast_ne_zero.mpr hn
    have hv : validWeights Ps
        (List.replicate Ps.length ((Ps.length : ℚ))⁻¹) := by
      refine ⟨by simp, ?_, ?_⟩
      · intro x hx
        rw [List.eq_of_mem_replicate hx]
        positivity
      · rw [List.sum_replicate, nsmul_eq_mul, mul_inv_cancel₀ hnq]
        norm_num [tolC]
    unfold combine
    rw [if_pos hv, weightedSum_replicate _ Ps h]
    rfl
  · intro a b c d
    unfold unweightedAverage equalAverageCell
    have hl : ((([a, b, c, d] : List Mat).length : ℚ))⁻¹ = (0.25 : ℚ) := by
      norm_num
    rw [hl, show sumMats [a, b, c, d] = addMat a (addMat b (addMat c d))
        from rfl,
      addMat_assoc (addMat a b) c d, addMat_assoc a b (addMat c d)]

/-- Witness for C5 at a one-member prediction set. -/
theorem combine_equal_weights_witness :
    ([[[(2 : ℚ)]]] : List Mat) ≠ [] ∧
      combine [[[(2 : ℚ)]]]
          (List.replicate ([[[(2 : ℚ)]]] : List Mat).length
            ((((([[[(2 : ℚ)]]] : List Mat).length) : ℚ))⁻¹)) =
        .ok (unweightedAverage [[[(2 : ℚ)]]]) :=
  ⟨List.cons_ne_nil _ _,
    (combine_equal_weights [[[(2 : ℚ)]]] (List.cons_ne_nil _ _)).1⟩

/-- Claim C6: `search` with the random strategy is deterministic given the
seed — two configurations that agree on strategy, seed and iteration count
(but may differ in the other configuration fields) produce identical
results, hence identical best weights and best score. -/
theorem search_random_deterministic {α : Type} (Ps : List Mat)
    (truth : List α) (f : Mat → List α → ℚ) (cfg1 cfg2 : Config)
    (h1 : cfg1.strategy = Strategy.random)
    (h2 : cfg2.strategy = Strategy.random)
    (hseed : cfg1.seed = cfg2.seed)
    (hiter : cfg1.iterations = cfg2.iterations) :
    search Ps truth f cfg1 = search Ps truth f cfg2 := by
  by_cases hvs : validShapes Ps truth = true
  · have g1 : ¬ (cfg1.strategy = Strategy.grid ∧
        cfg1.gridMaxMembers < Ps.length) := by
      rintro ⟨hg, -⟩
      rw [h1] at hg
      exact Strategy.noConfusion hg
    have g2 : ¬ (cfg2.strategy = Strategy.grid ∧
        cfg2.gridMaxMembers < Ps.length) := by
      rintro ⟨hg, -⟩
      rw [h2] at hg
      exact Strategy.noConfusion hg
    unfold search
    simp only [if_pos hvs, if_neg g1, if_neg g2,
      explored_eq_random cfg1 _ _ h1, explored_eq_random cfg2 _ _ h2,
      hseed, hiter]
  · unfold search
    rw [if_neg hvs, if_neg hvs]

/-- Witness for C6: two configurations agreeing on seed and iterations but
differing in grid bound and tolerance give the same result. -/
theorem search_random_deterministic_witness :
    (Config.mk Strategy.random 2 (some 7) 5 0).strategy = Strategy.random ∧
      (Config.mk Strategy.random 2 (some 7) 3 1).strategy =
        Strategy.random ∧
      (Config.mk Strategy.random 2 (some 7) 5 0).seed =
        (Config.mk Strategy.random 2 (some 7) 3 1).seed ∧
      (Config.mk Strategy.random 2 (some 7) 5 0).iterations =
        (Config.mk Strategy.random 2 (some 7) 3 1).iterations ∧
      search [[[(37 : ℚ)]]] [(0 : ℚ)] (fun A _ => entry A 0 0)
          (Config.mk Strategy.random 2 (some 7) 5 0) =
        search [[[(37 : ℚ)]]] [(0 : ℚ)] (fun A _ => entry A 0 0)
          (Config.mk Strategy.random 2 (some 7) 3 1) :=
  ⟨rfl, rfl, rfl, rfl,
    search_random_deterministic _ _ _ _ _ rfl rfl rfl rfl⟩

/-- Claim C7: whenever a single-member baseline weight vector (a single 1,
all other entries 0) lies in the explored candidate set of a grid or random
search that returns, the returned best score is at least that baseline's
score. -/
theorem search_ge_explored_baseline {α : Type} (Ps : List Mat)
    (truth : List α) (f : Mat → List α → ℚ) (cfg : Config)
    (w : List ℚ) (s : ℚ) (b : List ℚ) (i : ℕ)
    (hstrat : cfg.strategy = Strategy.grid ∨
      cfg.strategy = Strategy.random)
    (hres : search Ps truth f cfg = .ok (w, s))
    (hb : b = stdBasis Ps.length i) (hi : i < Ps.length)
    (hmem : b ∈ explored cfg (fun v => f (weightedSum v Ps) truth)
      Ps.length) :
    f (weightedSum b Ps) truth ≤ s :=
  (search_ok_spec hres).2.2.2 b hmem

/-- Witness for C7 at a single-member grid search whose explored set is
exactly the baseline `[1]`. -/
theorem search_ge_explored_baseline_witness :
    ((Config.mk Strategy.grid 1 none 5 0).strategy = Strategy.grid ∨
        (Config.mk Strategy.grid 1 none 5 0).strategy = Strategy.random) ∧
      search [[[(37 : ℚ)]]] [(0 : ℚ)] (fun A _ => entry A 0 0)
          (Config.mk Strategy.grid 1 none 5 0) = .ok ([1], 37) ∧
      ([1] : List ℚ) = stdBasis ([[[(37 : ℚ)]]] : List Mat).length 0 ∧
      0 < ([[[(37 : ℚ)]]] : List Mat).length ∧
      ([1] : List ℚ) ∈ explored (Config.mk Strategy.grid 1 none 5 0)
        (fun v => entry (weightedSum v [[[(37 : ℚ)]]]) 0 0)
        ([[[(37 : ℚ)]]] : List Mat).length ∧
      entry (weightedSum [1] [[[(37 : ℚ)]]]) 0 0 ≤ 37 := by
  have hres : search [[[(37 : ℚ)]]] [(0 : ℚ)] (fun A _ => entry A 0 0)
      (Config.mk Strategy.grid 1 none 5 0) = .ok ([1], 37) :=
    search_singleton_eval [[(37 : ℚ)]] [(0 : ℚ)] (fun A _ => entry A 0 0)
      (Config.mk Strategy.grid 1 none 5 0) rfl (fun _ => by norm_num)
  have hmem : ([1] : List ℚ) ∈ explored (Config.mk Strategy.grid 1 none 5 0)
      (fun v => entry (weightedSum v [[[(37 : ℚ)]]]) 0 0)
      ([[[(37 : ℚ)]]] : List Mat).length := by
    show ([1] : List ℚ) ∈ explored (Config.mk Strategy.grid 1 none 5 0) _ 1
    rw [explored_eq_grid _ _ _ rfl, gridCandidates_one]
    simp
  refine ⟨Or.inl rfl, hres, rfl, by norm_num, hmem, ?_⟩
  exact search_ge_explored_baseline [[[(37 : ℚ)]]] [(0 : ℚ)]
    (fun A _ => entry A 0 0) (Config.mk Strategy.grid 1 none 5 0)
    [1] 37 [1] 0 (Or.inl rfl) hres rfl (by norm_num) hmem

/-- Claim C8: on a prediction set with exactly one member, `search` returns
the weight vector `[1.0]` together with that single member's own score
(provided the member's sample count matches the truth and, for the grid
strategy, the configured member bound admits one member). -/
theorem search_single_member {α : Type} (M : Mat) (truth : List α)
    (f : Mat → List α → ℚ) (cfg : Config)
    (hlen : M.length = truth.length)
    (hgrid : cfg.strategy = Strategy.grid → 1 ≤ cfg.gridMaxMembers) :
    search [M] truth f cfg = .ok ([1], f M truth) :=
  search_singleton_eval M truth f cfg hlen hgrid

/-- Witness for C8 at a concrete one-member grid search. -/
theorem search_single_member_witness :
    ([[(37 : ℚ)]] : Mat).length = [(0 : ℚ)].length ∧
      ((Config.mk Strategy.grid 1 none 5 0).strategy = Strategy.grid →
        1 ≤ (Config.mk Strategy.grid 1 none 5 0).gridMaxMembers) ∧
      search [[[(37 : ℚ)]]] [(0 : ℚ)] (fun A _ => entry A 0 0)
        (Config.mk Strategy.grid 1 none 5 0) = .ok ([1], 37) :=
  ⟨rfl, fun _ => by norm_num,
    search_single_member [[(37 : ℚ)]] [(0 : ℚ)] (fun A _ => entry A 0 0)
      (Config.mk Strategy.grid 1 none 5 0) rfl (fun _ => by norm_num)⟩

/-- Claim C9: the `Sequential` build and the functional-API build of the
introductory notebook (Dense 32 relu on a 784-dimensional input, then
Dense 10 softmax) define the same network — with identical layer weights
they map every 784-dimensional input batch to the same output, for any
framework softmax function. -/
theorem sequential_functional_same_network
    (softmaxF : List ℚ → List ℚ) (W1 : Mat) (b1 : List ℚ) (W2 : Mat)
    (b2 : List ℚ) (batch : List (List ℚ))
    (hW1r : W1.length = 32) (hW1c : ∀ r ∈ W1, r.length = 784)
    (hb1 : b1.length = 32) (hW2r : W2.length = 10)
    (hW2c : ∀ r ∈ W2, r.length = 32) (hb2 : b2.length = 10)
    (hbatch : ∀ x ∈ batch, x.length = 784) :
    batch.map (sequentialModel softmaxF W1 b1 W2 b2) =
      batch.map (functionalModel softmaxF W1 b1 W2 b2) := rfl

/-- Witness for C9 at zero weights of the architecture's shapes and a
single zero input vector. -/
theorem sequential_functional_same_network_witness :
    (List.replicate 32 (List.replicate 784 (0 : ℚ))).length = 32 ∧
      (∀ r ∈ List.replicate 32 (List.replicate 784 (0 : ℚ)),
        r.length = 784) ∧
      (List.replicate 32 (0 : ℚ)).length = 32 ∧
      (List.replicate 10 (List.replicate 32 (0 : ℚ))).length = 10 ∧
      (∀ r ∈ List.replicate 10 (List.replicate 32 (0 : ℚ)),
        r.length = 32) ∧
      (List.replicate 10 (0 : ℚ)).length = 10 ∧
      (∀ x ∈ [List.replicate 784 (0 : ℚ)], x.length = 784) ∧
      [List.replicate 784 (0 : ℚ)].map
          (sequentialModel id (List.replicate 32 (List.replicate 784 (0 : ℚ)))
            (List.replicate 32 (0 : ℚ))
            (List.replicate 10 (List.replicate 32 (0 : ℚ)))
            (List.replicate 10 (0 : ℚ))) =
        [List.replicate 784 (0 : ℚ)].map
          (functionalModel id (List.replicate 32 (List.replicate 784 (0 : ℚ)))
            (List.replicate 32 (0 : ℚ))
            (List.replicate 10 (List.replicate 32 (0 : ℚ)))
            (List.replicate 10 (0 : ℚ))) := by
  refine ⟨List.length_replicate 32 _, ?_, List.length_replicate 32 _,
    List.length_replicate 10 _, ?_, List.length_replicate 10 _, ?_, ?_⟩
  · intro r hr
    rw [List.eq_of_mem_replicate hr, List.length_replicate]
  · intro r hr
    rw [List.eq_of_mem_replicate hr, List.length_replicate]
  · intro x hx
    rw [List.mem_singleton.mp hx, List.length_replicate]
  · exact sequential_functional_same_network id _ _ _ _ _
      (List.length_replicate 32 _)
      (fun r hr => by rw [List.eq_of_mem_replicate hr, List.length_replicate])
      (List.length_replicate 32 _) (List.length_replicate 10 _)
      (fun r hr => by rw [List.eq_of_mem_replicate hr, List.length_replicate])
      (List.length_replicate 10 _)
      (fun x hx => by rw [List.mem_singleton.mp hx, List.length_replicate])

/-- Claim C10: the weight vectors hard-coded in the two ensembling cells —
`[0.25, 0.25, 0.25, 0.25]` and `[0.5, 0.25, 0.1, 0.15]` — lie on the
probability simplex in exact rational arithmetic, and each cell expression
is exactly the convex combination of the member predictions with those
coefficients. -/
theorem hardcoded_weights_convex :
    onSimplex equalCellWeights ∧ onSimplex weightedCellWeights ∧
      (∀ a b c d : Mat, equalAverageCell a b c d =
        weightedSum equalCellWeights [a, b, c, d]) ∧
      (∀ a b c d : Mat, weightedAverageCell a b c d =
        weightedSum weightedCellWeights [a, b, c, d]) := by
  refine ⟨by norm_num [onSimplex, equalCellWeights],
    by norm_num [onSimplex, weightedCellWeights], ?_, ?_⟩
  · intro a b c d
    show scaleMat 0.25 (addMat (addMat (addMat a b) c) d) =
      addMat (scaleMat 0.25 a) (addMat (scaleMat 0.25 b)
        (addMat (scaleMat 0.25 c) (scaleMat 0.25 d)))
    rw [scaleMat_addMat, scaleMat_addMat, scaleMat_addMat, addMat_assoc,
      addMat_assoc]
  · intro a b c d
    show addMat (addMat (addMat (scaleMat 0.5 a) (scaleMat 0.25 b))
        (scaleMat 0.1 c)) (scaleMat 0.15 d) =
      addMat (scaleMat 0.5 a) (addMat (scaleMat 0.25 b)
        (addMat (scaleMat 0.1 c) (scaleMat 0.15 d)))
    rw [addMat_assoc, addMat_assoc]

end Claims

end Ensemble
